import Mathlib

/-!
# minmea: fixed-point helpers of `minmea.h`

Shallow embedding of the three inline numeric helpers of `src/minmea.h`
(`minmea_rescale`, `minmea_float`, `minmea_coord`) and the properties the
specification states about them.

C `int` is modelled as `Int`; every arithmetic result passes through
`store`, which decides what happens to a result that does not fit the
32-bit two's complement range.  C division and remainder truncate toward
zero, so they are `Int.tdiv` and `Int.tmod`.
-/

namespace Minmea

/-- Smallest value of the C type `int` (32-bit two's complement). -/
def INT_MIN : Int := -2147483648

/-- Largest value of the C type `int` (32-bit two's complement). -/
def INT_MAX : Int := 2147483647

/-- Membership of the range of the C type `int`. -/
def inRange (x : Int) : Prop := INT_MIN ≤ x ∧ x ≤ INT_MAX

instance (x : Int) : Decidable (inRange x) := by
  unfold inRange; exact inferInstance

/-- Ways in which the evaluation of a C integer expression can go wrong. -/
inductive Fault where
  | div_by_zero
  | overflow
  deriving DecidableEq

/-- Outcome of evaluating a C expression: a value, or the fault that stopped it. -/
inductive Outcome (α : Type) where
  | ok (v : α)
  | fault (f : Fault)
  deriving DecidableEq

/-- Sequencing of evaluations: the first fault stops the evaluation. -/
def Outcome.bind {α β : Type} (x : Outcome α) (f : α → Outcome β) : Outcome β :=
  match x with
  | .ok v => f v
  | .fault e => .fault e

instance : Monad Outcome where
  pure := Outcome.ok
  bind := Outcome.bind

/-- Treatment of a signed result that leaves the range of `int`:
`checked` follows the C standard (signed overflow is undefined, reported as a
fault), `wrapping` is two's complement wrap-around modulo `2^32`, and
`unbounded` evaluates over the mathematical integers. -/
inductive IntMode where
  | checked
  | wrapping
  | unbounded
  deriving DecidableEq

/-- Reduction of an integer modulo `2^32` into the range of `int`. -/
def wrap32 (x : Int) : Int := (x + 2147483648) % 4294967296 - 2147483648

/-- Storing an arithmetic result in an `int`. -/
def store (m : IntMode) (x : Int) : Outcome Int :=
  match m with
  | .checked => if INT_MIN ≤ x ∧ x ≤ INT_MAX then .ok x else .fault .overflow
  | .wrapping => .ok (wrap32 x)
  | .unbounded => .ok x

/-- C `a + b` on `int`. -/
def add (m : IntMode) (a b : Int) : Outcome Int := store m (a + b)

/-- C `a - b` on `int`. -/
def sub (m : IntMode) (a b : Int) : Outcome Int := store m (a - b)

/-- C `a * b` on `int`. -/
def mul (m : IntMode) (a b : Int) : Outcome Int := store m (a * b)

/-- C `a / b` on `int`: a zero divisor is a fault, the quotient truncates toward zero. -/
def div (m : IntMode) (a b : Int) : Outcome Int :=
  if b = 0 then .fault .div_by_zero else store m (Int.tdiv a b)

/-- C `a % b` on `int`: a zero divisor is a fault, the remainder has the sign of `a`;
it is defined only where the quotient `a / b` is. -/
def mod (m : IntMode) (a b : Int) : Outcome Int :=
  if b = 0 then .fault .div_by_zero
  else (store m (Int.tdiv a b)).bind (fun _ => store m (Int.tmod a b))

/-- C value of a comparison: `1` when it holds, `0` otherwise. -/
def truth (p : Prop) [Decidable p] : Int := if p then 1 else 0

/-- Embedding of `minmea_rescale(value, from, to)`, `minmea.h` lines 164-174. -/
def minmea_rescale (m : IntMode) (value from_scale to_scale : Int) : Outcome Int :=
  if from_scale = 0 then
    .ok 0
  else if from_scale = to_scale then
    .ok value
  else if from_scale > to_scale then do
    -- (value + ((value > 0) - (value < 0)) * from/to/2) / (from/to)
    let sign ← sub m (truth (value > 0)) (truth (value < 0))
    let t1 ← mul m sign from_scale
    let t2 ← div m t1 to_scale
    let adj ← div m t2 2
    let num ← add m value adj
    let k ← div m from_scale to_scale
    div m num k
  else do
    -- value * (to/from)
    let k ← div m to_scale from_scale
    mul m value k

/-- Result of a C `float` expression: not-a-number, or a number given by its
exact rational reading (the rounding of `float` arithmetic is not modelled).
Both functions below divide only by a value that is non-zero whenever the
preceding integer steps evaluate without fault. -/
inductive FloatVal where
  | nan
  | num (q : ℚ)
  deriving DecidableEq

/-- Embedding of `minmea_float(value, scale)`, `minmea.h` lines 180-185. -/
def minmea_float (value scale : Int) : Outcome FloatVal :=
  if scale = 0 then
    .ok .nan
  else
    .ok (.num ((value : ℚ) / (scale : ℚ)))

/-- The local `degrees` of `minmea_coord`: `value / (scale * 100)`. -/
def coord_degrees (m : IntMode) (value scale : Int) : Outcome Int := do
  let d ← mul m scale 100
  div m value d

/-- The local `minutes` of `minmea_coord`: `value % (scale * 100)`. -/
def coord_minutes (m : IntMode) (value scale : Int) : Outcome Int := do
  let d ← mul m scale 100
  mod m value d

/-- Embedding of `minmea_coord(value, scale)`, `minmea.h` lines 191-198. -/
def minmea_coord (m : IntMode) (value scale : Int) : Outcome FloatVal :=
  if scale = 0 then
    .ok .nan
  else do
    let degrees ← coord_degrees m value scale
    let minutes ← coord_minutes m value scale
    let den ← mul m 60 scale
    .ok (.num ((degrees : ℚ) + (minutes : ℚ) / (den : ℚ)))

/-- Round trip `rescale(rescale(v, a, b), b, a)`. -/
def round_trip (m : IntMode) (v a b : Int) : Outcome Int := do
  let r ← minmea_rescale m v a b
  minmea_rescale m r b a

/-- Closed form of `minmea_rescale` on non-zero scales, over the mathematical
integers: the value each branch returns when no intermediate result overflows
(proved equal to the embedding in `rescale_eq_closed`). -/
def rescale_closed (value from_scale to_scale : Int) : Int :=
  if from_scale = to_scale then value
  else if from_scale > to_scale then
    Int.tdiv (value + Int.sign value * (from_scale / to_scale / 2)) (from_scale / to_scale)
  else value * (to_scale / from_scale)

/-! ## Evaluation lemmas -/

@[simp] theorem bind_ok {α β : Type} (v : α) (f : α → Outcome β) :
    (Outcome.ok v >>= f) = f v := rfl

@[simp] theorem bind_fault {α β : Type} (e : Fault) (f : α → Outcome β) :
    (Outcome.fault e >>= f) = Outcome.fault e := rfl

/-- A result inside the range of `int` is stored unchanged, whatever the mode. -/
theorem store_of_inRange (m : IntMode) {x : Int} (h : inRange x) : store m x = .ok x := by
  unfold inRange INT_MIN INT_MAX at h
  cases m
  · simp [store, INT_MIN, INT_MAX, h.1, h.2]
  · have : wrap32 x = x := by unfold wrap32; omega
    simp [store, this]
  · simp [store]

/-- The C expression `(value > 0) - (value < 0)` is the sign of `value`. -/
theorem truth_sub_truth (v : Int) : truth (v > 0) - truth (v < 0) = Int.sign v := by
  unfold truth
  rcases lt_trichotomy v 0 with h | h | h
  · have h1 : ¬ v > 0 := by omega
    simp [h, h1, Int.sign_eq_neg_one_of_neg h]
  · subst h; simp
  · have h1 : ¬ v < 0 := by omega
    simp [h, h1, Int.sign_eq_one_of_pos h]

theorem sign_cases (v : Int) :
    (0 < v ∧ Int.sign v = 1) ∨ (v = 0 ∧ Int.sign v = 0) ∨ (v < 0 ∧ Int.sign v = -1) := by
  rcases lt_trichotomy v 0 with h | h | h
  · exact Or.inr (Or.inr ⟨h, Int.sign_eq_neg_one_of_neg h⟩)
  · exact Or.inr (Or.inl ⟨h, by subst h; rfl⟩)
  · exact Or.inl ⟨h, Int.sign_eq_one_of_pos h⟩

/-- Truncating division of a signed non-negative number: the sign moves out. -/
theorem tdiv_sign_mul (v x d : Int) (hx : 0 ≤ x) (hd : 0 ≤ d) :
    Int.tdiv (Int.sign v * x) d = Int.sign v * (x / d) := by
  rcases sign_cases v with ⟨_, h⟩ | ⟨_, h⟩ | ⟨_, h⟩
  · rw [h, one_mul, one_mul, Int.tdiv_eq_ediv hx hd]
  · rw [h, zero_mul, zero_mul]; simp
  · rw [h, neg_one_mul, neg_one_mul, Int.neg_tdiv, Int.tdiv_eq_ediv hx hd]

/-- Truncating division by a positive divisor keeps a value inside the range of `int`. -/
theorem inRange_tdiv {a k : Int} (ha : inRange a) (hk : 1 ≤ k) : inRange (Int.tdiv a k) := by
  unfold inRange INT_MIN INT_MAX at *
  rcases le_or_lt 0 a with h | h
  · rw [Int.tdiv_eq_ediv h (by omega)]
    have h1 : a / k ≤ a := Int.ediv_le_self _ h
    have h2 : 0 ≤ a / k := Int.ediv_nonneg h (by omega)
    omega
  · have e : Int.tdiv a k = -((-a) / k) := by
      rw [← Int.tdiv_eq_ediv (by omega) (by omega), Int.neg_tdiv, neg_neg]
    have h1 : (-a) / k ≤ -a := Int.ediv_le_self _ (by omega)
    have h2 : 0 ≤ (-a) / k := Int.ediv_nonneg (by omega) (by omega)
    omega

/-- Storing never reports a division by zero: it yields a value or an overflow. -/
theorem store_cases (m : IntMode) (x : Int) :
    store m x = .fault .overflow ∨ ∃ y, store m x = .ok y := by
  cases m
  · by_cases h : INT_MIN ≤ x ∧ x ≤ INT_MAX
    · exact Or.inr ⟨x, by simp [store, h]⟩
    · exact Or.inl (by simp [store, h])
  · exact Or.inr ⟨wrap32 x, rfl⟩
  · exact Or.inr ⟨x, rfl⟩

/-- The sign of a value times a non-negative `int` is an `int`. -/
theorem inRange_sign_mul (v x : Int) (h0 : 0 ≤ x) (hx : x ≤ INT_MAX) :
    inRange (Int.sign v * x) := by
  unfold inRange INT_MIN INT_MAX
  unfold INT_MAX at hx
  rcases sign_cases v with ⟨_, h⟩ | ⟨_, h⟩ | ⟨_, h⟩ <;> rw [h] <;> omega

/-- Steps of the shrinking branch on positive scales: everything up to the adjustment
`sign * from / to / 2` and the divisor `from / to` evaluates without fault, which
leaves the sum `value + adjustment` and the final quotient. -/
theorem rescale_shrink_steps (m : IntMode) (value from_scale to_scale : Int)
    (hto : 0 < to_scale) (hlt : to_scale < from_scale) (hfrom : from_scale ≤ INT_MAX) :
    minmea_rescale m value from_scale to_scale
      = (store m (value + Int.sign value * (from_scale / to_scale / 2)) >>= fun num =>
          store m (Int.tdiv num (from_scale / to_scale))) := by
  have hf0 : from_scale ≠ 0 := by omega
  have hne : from_scale ≠ to_scale := by omega
  have hk1 : 1 ≤ from_scale / to_scale :=
    (Int.le_ediv_iff_mul_le hto).2 (by omega)
  have hkle : from_scale / to_scale ≤ from_scale :=
    Int.ediv_le_self _ (by omega)
  have hk0 : from_scale / to_scale ≠ 0 := by omega
  have hsign : inRange (Int.sign value) := by
    have := inRange_sign_mul value 1 (by omega) (by unfold INT_MAX; omega)
    rwa [mul_one] at this
  have ht1 := inRange_sign_mul value from_scale (by omega) hfrom
  have ht2 := inRange_sign_mul value (from_scale / to_scale) (by omega) (by omega)
  have ht3 := inRange_sign_mul value (from_scale / to_scale / 2) (by omega) (by omega)
  unfold INT_MAX at hfrom
  have hk : inRange (from_scale / to_scale) := by
    unfold inRange INT_MIN INT_MAX; omega
  have e2 : Int.tdiv (Int.sign value * from_scale) to_scale
      = Int.sign value * (from_scale / to_scale) :=
    tdiv_sign_mul _ _ _ (by omega) (by omega)
  have e3 : Int.tdiv (Int.sign value * (from_scale / to_scale)) 2
      = Int.sign value * (from_scale / to_scale / 2) :=
    tdiv_sign_mul _ _ _ (by omega) (by omega)
  have e4 : Int.tdiv from_scale to_scale = from_scale / to_scale :=
    Int.tdiv_eq_ediv (by omega) (by omega)
  have hgt : from_scale > to_scale := hlt
  rw [minmea_rescale, if_neg hf0, if_neg hne, if_pos hgt]
  simp only [sub, mul, div, add, truth_sub_truth, store_of_inRange m hsign, bind_ok,
    store_of_inRange m ht1, if_neg (ne_of_gt hto), e2, store_of_inRange m ht2,
    e3, store_of_inRange m ht3, e4, store_of_inRange m hk, if_neg hk0]
  have h2 : ¬ ((2 : Int) = 0) := by decide
  simp only [if_neg h2, store_of_inRange m ht2, bind_ok, e3, store_of_inRange m ht3]

/-- Closed form of the shrinking branch: when the sum of `value` and the adjustment
`sign * from / to / 2` fits an `int`, the call returns that sum divided (truncating)
by `from / to`. -/
theorem rescale_shrink (m : IntMode) (value from_scale to_scale : Int)
    (hto : 0 < to_scale) (hlt : to_scale < from_scale) (hfrom : from_scale ≤ INT_MAX)
    (hsum : inRange (value + Int.sign value * (from_scale / to_scale / 2))) :
    minmea_rescale m value from_scale to_scale
      = .ok (Int.tdiv (value + Int.sign value * (from_scale / to_scale / 2))
              (from_scale / to_scale)) := by
  have hk1 : 1 ≤ from_scale / to_scale :=
    (Int.le_ediv_iff_mul_le hto).2 (by omega)
  rw [rescale_shrink_steps m value from_scale to_scale hto hlt hfrom,
    store_of_inRange m hsum, bind_ok, store_of_inRange m (inRange_tdiv hsum hk1)]

/-- Steps of the growing branch on positive scales: the divisor `from` is non-zero and
the ratio `to / from` is an `int`, which leaves the product `value * (to / from)`. -/
theorem rescale_grow_steps (m : IntMode) (value from_scale to_scale : Int)
    (hfrom : 0 < from_scale) (hlt : from_scale < to_scale) (hto : to_scale ≤ INT_MAX) :
    minmea_rescale m value from_scale to_scale = store m (value * (to_scale / from_scale)) := by
  have hf0 : from_scale ≠ 0 := by omega
  have hne : from_scale ≠ to_scale := by omega
  have hgt : ¬ from_scale > to_scale := by omega
  have hkle : to_scale / from_scale ≤ to_scale := Int.ediv_le_self _ (by omega)
  have hk1 : 0 ≤ to_scale / from_scale := Int.ediv_nonneg (by omega) (by omega)
  unfold INT_MAX at hto
  have hk : inRange (to_scale / from_scale) := by
    unfold inRange INT_MIN INT_MAX; omega
  have e4 : Int.tdiv to_scale from_scale = to_scale / from_scale :=
    Int.tdiv_eq_ediv (by omega) (by omega)
  rw [minmea_rescale, if_neg hf0, if_neg hne, if_neg hgt]
  simp only [mul, div, if_neg hf0, e4, store_of_inRange m hk, bind_ok]

/-- Closed form of the growing branch: when the product fits an `int`, the call
returns `value * (to / from)`. -/
theorem rescale_grow (m : IntMode) (value from_scale to_scale : Int)
    (hfrom : 0 < from_scale) (hlt : from_scale < to_scale) (hto : to_scale ≤ INT_MAX)
    (hprod : inRange (value * (to_scale / from_scale))) :
    minmea_rescale m value from_scale to_scale = .ok (value * (to_scale / from_scale)) := by
  rw [rescale_grow_steps m value from_scale to_scale hfrom hlt hto, store_of_inRange m hprod]

/-- Rounding a multiple of `k`: the half-step adjustment is absorbed by the
truncating division. -/
theorem tdiv_mul_add_half (v k : Int) (hk : 1 ≤ k) :
    Int.tdiv (v * k + Int.sign v * (k / 2)) k = v := by
  have hk0 : k ≠ 0 := by omega
  have hhalf : k / 2 / k = 0 := Int.ediv_eq_zero_of_lt (by omega) (by omega)
  have key : ∀ w : Int, 0 ≤ w → (w * k + k / 2) / k = w := by
    intro w _
    rw [add_comm, mul_comm, Int.add_mul_ediv_left _ _ hk0, hhalf, zero_add]
  rcases sign_cases v with ⟨hv, h⟩ | ⟨hv, h⟩ | ⟨hv, h⟩
  · rw [h, one_mul, Int.tdiv_eq_ediv _ (by omega)]
    · exact key v (by omega)
    · have : 0 ≤ v * k := Int.mul_nonneg (by omega) (by omega)
      omega
  · subst hv; simp
  · have e : v * k + -1 * (k / 2) = -((-v) * k + k / 2) := by ring
    have hpos : 0 ≤ (-v) * k := Int.mul_nonneg (by omega) (by omega)
    rw [h, e, Int.neg_tdiv, Int.tdiv_eq_ediv (by omega) (by omega), key (-v) (by omega),
      neg_neg]

/-- Closed form of the quotient of the shrinking branch: the magnitude is
`(|v| + k / 2) / k` and the sign is the sign of `v`. -/
theorem shrink_quotient (v k : Int) (hk : 1 ≤ k) :
    Int.tdiv (v + Int.sign v * (k / 2)) k = Int.sign v * ((|v| + k / 2) / k) := by
  rcases sign_cases v with ⟨hv, h⟩ | ⟨hv, h⟩ | ⟨hv, h⟩
  · rw [h, one_mul, one_mul, abs_of_pos hv, Int.tdiv_eq_ediv (by omega) (by omega)]
  · subst hv; simp
  · have e : v + -1 * (k / 2) = -((-v) + k / 2) := by ring
    rw [h, e, Int.neg_tdiv, abs_of_neg hv, Int.tdiv_eq_ediv (by omega) (by omega)]
    ring

/-- The rounded quotient times `k` stays between `0` and `v` plus the adjustment. -/
theorem shrink_quotient_mul_inRange (v k : Int) (hk : 1 ≤ k)
    (hsum : inRange (v + Int.sign v * (k / 2))) :
    inRange (Int.tdiv (v + Int.sign v * (k / 2)) k * k) := by
  rw [shrink_quotient v k hk]
  unfold inRange INT_MIN INT_MAX at *
  have hq : 0 ≤ (|v| + k / 2) / k :=
    Int.ediv_nonneg (by have := abs_nonneg v; omega) (by omega)
  have hmul : (|v| + k / 2) / k * k ≤ |v| + k / 2 := Int.ediv_mul_le _ (by omega)
  have hnn : 0 ≤ (|v| + k / 2) / k * k := Int.mul_nonneg hq (by omega)
  rcases sign_cases v with ⟨hv, h⟩ | ⟨hv, h⟩ | ⟨hv, h⟩
  · rw [h] at hsum ⊢
    rw [abs_of_pos hv] at hmul hnn
    rw [abs_of_pos hv, one_mul]
    omega
  · subst hv; simp
  · rw [h] at hsum ⊢
    rw [abs_of_neg hv] at hmul hnn
    rw [abs_of_neg hv, neg_one_mul, neg_mul]
    omega

/-- A checked store that does not overflow stored a value of the range of `int`. -/
theorem inRange_of_store_checked {x : Int} (h : store .checked x ≠ .fault .overflow) :
    inRange x := by
  by_contra hx
  apply h
  unfold inRange at hx
  simp [store, hx]

/-- On positive scales, when the checked evaluation does not overflow, every mode
returns the closed form. -/
theorem rescale_eq_closed (m : IntMode) (value from_scale to_scale : Int)
    (hfrom : 0 < from_scale) (hfmax : from_scale ≤ INT_MAX) (hto : 0 < to_scale)
    (htmax : to_scale ≤ INT_MAX)
    (h : minmea_rescale .checked value from_scale to_scale ≠ .fault .overflow) :
    minmea_rescale m value from_scale to_scale
      = .ok (rescale_closed value from_scale to_scale) := by
  have hf0 : from_scale ≠ 0 := by omega
  rcases lt_trichotomy from_scale to_scale with hlt | heq | hgt
  · have hne : from_scale ≠ to_scale := by omega
    have hng : ¬ from_scale > to_scale := by omega
    rw [rescale_grow_steps .checked value from_scale to_scale hfrom hlt htmax] at h
    rw [rescale_closed, if_neg hne, if_neg hng]
    exact rescale_grow m value from_scale to_scale hfrom hlt htmax (inRange_of_store_checked h)
  · subst heq
    simp [minmea_rescale, rescale_closed, hf0]
  · have hne : from_scale ≠ to_scale := by omega
    have hg : from_scale > to_scale := hgt
    rw [rescale_shrink_steps .checked value from_scale to_scale hto hgt hfmax] at h
    have hsum : inRange (value + Int.sign value * (from_scale / to_scale / 2)) := by
      apply inRange_of_store_checked
      intro hs
      rw [hs] at h
      exact h rfl
    rw [rescale_closed, if_neg hne, if_pos hg]
    exact rescale_shrink m value from_scale to_scale hto hgt hfmax hsum

/-- The closed form is odd in the value. -/
theorem rescale_closed_neg (value from_scale to_scale : Int) :
    rescale_closed (-value) from_scale to_scale = -rescale_closed value from_scale to_scale := by
  unfold rescale_closed
  split
  · rfl
  · split
    · have e : -value + Int.sign (-value) * (from_scale / to_scale / 2)
          = -(value + Int.sign value * (from_scale / to_scale / 2)) := by
        rw [Int.sign_neg]; ring
      rw [e, Int.neg_tdiv]
    · ring

/-- The closed form is monotone in the value on positive scales. -/
theorem rescale_closed_mono (v1 v2 from_scale to_scale : Int) (hfrom : 0 < from_scale)
    (hto : 0 < to_scale) (hle : v1 ≤ v2) :
    rescale_closed v1 from_scale to_scale ≤ rescale_closed v2 from_scale to_scale := by
  unfold rescale_closed
  split
  · exact hle
  · split
    · rename_i hne hgt
      have hk1 : 1 ≤ from_scale / to_scale := (Int.le_ediv_iff_mul_le hto).2 (by omega)
      have hk0 : 0 < from_scale / to_scale := by omega
      rw [shrink_quotient v1 _ hk1, shrink_quotient v2 _ hk1]
      generalize from_scale / to_scale = k at hk1 hk0
      have hq : ∀ w : Int, 0 ≤ w → 0 ≤ (w + k / 2) / k := fun w hw =>
        Int.ediv_nonneg (by omega) (by omega)
      rcases sign_cases v1 with ⟨h1, e1⟩ | ⟨h1, e1⟩ | ⟨h1, e1⟩ <;>
        rcases sign_cases v2 with ⟨h2, e2⟩ | ⟨h2, e2⟩ | ⟨h2, e2⟩ <;>
        rw [e1, e2] <;> try omega
      · rw [abs_of_pos h1, abs_of_pos h2, one_mul, one_mul]
        exact Int.ediv_le_ediv hk0 (by omega)
      · have := hq |v2| (abs_nonneg v2)
        omega
      · have := hq |v1| (abs_nonneg v1)
        have := hq |v2| (abs_nonneg v2)
        omega
      · have := hq |v1| (abs_nonneg v1)
        omega
      · rw [abs_of_neg h1, abs_of_neg h2, neg_one_mul, neg_one_mul, neg_le_neg_iff]
        exact Int.ediv_le_ediv hk0 (by omega)
    · rename_i hne hng
      have hk : 0 ≤ to_scale / from_scale := Int.ediv_nonneg (by omega) (by omega)
      exact Int.mul_le_mul_of_nonneg_right hle hk

/-! ## Claims -/

/-- C1, as stated, fails: with the scale `0` on both sides the guard `from == 0`
answers `0`, not the value `1`. -/
theorem rescale_same_scale_zero_counterexample :
    minmea_rescale .checked 1 0 0 = .ok 0 ∧ minmea_rescale .checked 1 0 0 ≠ .ok 1 := by
  decide

/-- C1 (amended): for every value `v` and every scale `s` other than `0`,
`minmea_rescale(v, s, s)` returns `v`, in every overflow mode. -/
theorem rescale_same_scale (m : IntMode) (v s : Int) (hs : s ≠ 0) :
    minmea_rescale m v s s = .ok v := by
  simp [minmea_rescale, hs]

theorem rescale_same_scale_witness :
    (10 : Int) ≠ 0 ∧ minmea_rescale .checked 1235 10 10 = .ok 1235 :=
  ⟨by decide, rescale_same_scale .checked 1235 10 (by decide)⟩

/-- C2, evaluated at `value = 1235`, `from = 10`, `to = 1`: the code returns `124`,
while the exact quotient `1235 * 1 / 10` truncated toward zero is `123`, and
`|124| * (10 / 1)` exceeds `|1235|`; likewise for `-1235`. -/
theorem rescale_rounds_half_away_at_1235 :
    minmea_rescale .checked 1235 10 1 = .ok 124
    ∧ Int.tdiv (1235 * 1) 10 = 123
    ∧ ¬ (|(124 : Int)| * (10 / 1) ≤ |(1235 : Int)|)
    ∧ minmea_rescale .checked (-1235) 10 1 = .ok (-124)
    ∧ Int.tdiv (-1235 * 1) 10 = -123 := by
  decide

/-- C3: a value of scale `0` rescales to `0`, whatever the value and the target
scale, in every overflow mode. -/
theorem rescale_unknown_scale (m : IntMode) (value to_scale : Int) :
    minmea_rescale m value 0 to_scale = .ok 0 := by
  simp [minmea_rescale]

/-- C4, as stated, fails: `v = 306783378`, `a = 1`, `b = 7` has `v * 7 = 2147483646`
inside the range of `int`, but the way back adds the adjustment `3` and leaves the
range: checked evaluation overflows, wrap-around evaluation returns `-306783378`. -/
theorem round_trip_grow_counterexample :
    inRange (306783378 * 7)
    ∧ round_trip .checked 306783378 1 (7 * 1) = .fault .overflow
    ∧ round_trip .wrapping 306783378 1 (7 * 1) = .ok (-306783378)
    ∧ round_trip .checked 306783378 1 (7 * 1) ≠ .ok 306783378
    ∧ round_trip .wrapping 306783378 1 (7 * 1) ≠ .ok 306783378 := by
  decide

/-- C4 (amended): growing first, for scales `a > 0`, `b = k * a` with `k >= 1`, when
both `v * k` and `v * k` plus the rounding adjustment `sign(v) * (k / 2)` fit a 32-bit
`int`, the round trip `rescale(rescale(v, a, b), b, a)` returns `v` exactly. -/
theorem round_trip_grow (m : IntMode) (v a k : Int) (ha : 0 < a) (hk : 1 ≤ k)
    (hb : k * a ≤ INT_MAX) (hprod : inRange (v * k))
    (hsum : inRange (v * k + Int.sign v * (k / 2))) :
    round_trip m v a (k * a) = .ok v := by
  rcases eq_or_lt_of_le hk with h1 | h2
  · subst h1
    have ha0 : a ≠ 0 := by omega
    simp [round_trip, minmea_rescale, ha0]
  · have hlt : a < k * a := by nlinarith
    have hdiv : k * a / a = k := Int.mul_ediv_cancel k (by omega)
    have hgrow : minmea_rescale m v a (k * a) = .ok (v * k) := by
      have := rescale_grow m v a (k * a) ha hlt hb (by rw [hdiv]; exact hprod)
      rw [hdiv] at this
      exact this
    have hks : Int.sign k = 1 := Int.sign_eq_one_of_pos (by omega)
    have hsign : Int.sign (v * k) = Int.sign v := by
      rw [Int.sign_mul, hks, mul_one]
    have hshrink := rescale_shrink m (v * k) (k * a) a ha hlt hb
      (by rw [hdiv, hsign]; exact hsum)
    rw [hdiv, hsign, tdiv_mul_add_half v k hk] at hshrink
    simp [round_trip, hgrow, hshrink]

theorem round_trip_grow_witness :
    (0 : Int) < 10 ∧ (1 : Int) ≤ 100 ∧ 100 * 10 ≤ INT_MAX ∧ inRange (1234 * 100)
    ∧ inRange (1234 * 100 + Int.sign 1234 * (100 / 2))
    ∧ round_trip .checked 1234 10 (100 * 10) = .ok 1234 :=
  ⟨by decide, by decide, by decide, by decide, by decide,
    round_trip_grow .checked 1234 10 100 (by decide) (by decide) (by decide) (by decide)
      (by decide)⟩

/-- C5, as stated, fails: shrinking first loses the last digit, `1235` at scale `10`
becomes `124` at scale `1` and comes back as `1240`. -/
theorem round_trip_shrink_counterexample :
    minmea_rescale .checked 1235 (10 * 1) 1 = .ok 124
    ∧ round_trip .checked 1235 (10 * 1) 1 = .ok 1240
    ∧ round_trip .checked 1235 (10 * 1) 1 ≠ .ok 1235 := by
  decide

/-- C5 (amended): shrinking first, for scales `b > 0`, `a = k * b` with `k >= 1`, when
`v` plus the rounding adjustment `sign(v) * (k / 2)` fits a 32-bit `int`, the round
trip `rescale(rescale(v, a, b), b, a)` returns `v` exactly when `v` is a multiple of
`k`, and only then. -/
theorem round_trip_shrink (m : IntMode) (v b k : Int) (hb : 0 < b) (hk : 1 ≤ k)
    (ha : k * b ≤ INT_MAX) (hsum : inRange (v + Int.sign v * (k / 2))) :
    round_trip m v (k * b) b = .ok v ↔ k ∣ v := by
  rcases eq_or_lt_of_le hk with h1 | h2
  · subst h1
    have hb0 : b ≠ 0 := by omega
    simp [round_trip, minmea_rescale, hb0]
  · have hlt : b < k * b := by nlinarith
    have hdiv : k * b / b = k := Int.mul_ediv_cancel k (by omega)
    have hshrink := rescale_shrink m v (k * b) b hb hlt ha (by rw [hdiv]; exact hsum)
    rw [hdiv] at hshrink
    have hgrow := rescale_grow m (Int.tdiv (v + Int.sign v * (k / 2)) k) b (k * b) hb hlt ha
      (by rw [hdiv]; exact shrink_quotient_mul_inRange v k hk hsum)
    rw [hdiv] at hgrow
    have hrt : round_trip m v (k * b) b
        = .ok (Int.tdiv (v + Int.sign v * (k / 2)) k * k) := by
      simp [round_trip, hshrink, hgrow]
    rw [hrt, Outcome.ok.injEq]
    constructor
    · intro h
      exact Dvd.intro_left _ h
    · rintro ⟨w, rfl⟩
      have hks : Int.sign k = 1 := Int.sign_eq_one_of_pos (by omega)
      have hsign : Int.sign (k * w) = Int.sign w := by
        rw [Int.sign_mul, hks, one_mul]
      rw [hsign, mul_comm k w, tdiv_mul_add_half w k hk]

theorem round_trip_shrink_witness :
    (0 : Int) < 1 ∧ (1 : Int) ≤ 10 ∧ 10 * 1 ≤ INT_MAX
    ∧ inRange (1230 + Int.sign 1230 * (10 / 2))
    ∧ (round_trip .checked 1230 (10 * 1) 1 = .ok 1230 ↔ (10 : Int) ∣ 1230) :=
  ⟨by decide, by decide, by decide, by decide,
    round_trip_shrink .checked 1230 1 10 (by decide) (by decide) (by decide) (by decide)⟩

/-- C6: growing by an integer ratio is exact. For `from > 0`, `to = k * from` with
`k >= 2` and `value * k` inside the range of `int`, the call returns `r = value * k`,
so `r * from = value * to` and `r / to`, `value / from` are the same rational. -/
theorem rescale_grow_exact (m : IntMode) (value from_scale k : Int) (hfrom : 0 < from_scale)
    (hk : 2 ≤ k) (hto : k * from_scale ≤ INT_MAX) (hprod : inRange (value * k)) :
    minmea_rescale m value from_scale (k * from_scale) = .ok (value * k)
    ∧ (value * k) * from_scale = value * (k * from_scale)
    ∧ (((value * k : Int) : ℚ) / ((k * from_scale : Int) : ℚ)
        = (value : ℚ) / (from_scale : ℚ)) := by
  have hlt : from_scale < k * from_scale := by nlinarith
  have hdiv : k * from_scale / from_scale = k := Int.mul_ediv_cancel k (by omega)
  have hgrow := rescale_grow m value from_scale (k * from_scale) hfrom hlt hto
    (by rw [hdiv]; exact hprod)
  rw [hdiv] at hgrow
  refine ⟨hgrow, by ring, ?_⟩
  have hf : (from_scale : ℚ) ≠ 0 := by exact_mod_cast (ne_of_gt hfrom)
  have hkq : (k : ℚ) ≠ 0 := by
    have : k ≠ 0 := by omega
    exact_mod_cast this
  push_cast
  field_simp
  ring

theorem rescale_grow_exact_witness :
    (0 : Int) < 10 ∧ (2 : Int) ≤ 100 ∧ 100 * 10 ≤ INT_MAX ∧ inRange (1234 * 100)
    ∧ minmea_rescale .checked 1234 10 (100 * 10) = .ok (1234 * 100)
    ∧ ((1234 : Int) * 100) * 10 = 1234 * (100 * 10)
    ∧ ((((1234 : Int) * 100 : Int) : ℚ) / (((100 : Int) * 10 : Int) : ℚ)
        = ((1234 : Int) : ℚ) / ((10 : Int) : ℚ)) :=
  ⟨by decide, by decide, by decide, by decide,
    rescale_grow_exact .checked 1234 10 100 (by decide) (by decide) (by decide) (by decide)⟩

/-- C7: scale `0` takes the not-a-number branch of `minmea_float` and of
`minmea_coord` for every value, before any division is evaluated (the outcome is
not-a-number, not a division fault); for every scale other than `0` neither function
takes that branch. -/
theorem nan_branch_iff_scale_zero (m : IntMode) (v scale : Int) :
    minmea_float v 0 = .ok .nan
    ∧ minmea_coord m v 0 = .ok .nan
    ∧ (scale ≠ 0 →
        minmea_float v scale ≠ .ok .nan ∧ minmea_coord m v scale ≠ .ok .nan) := by
  refine ⟨by simp [minmea_float], by simp [minmea_coord], ?_⟩
  intro hs
  refine ⟨by simp [minmea_float, hs], ?_⟩
  rw [minmea_coord, if_neg hs]
  cases coord_degrees m v scale with
  | fault e => simp
  | ok d =>
    cases coord_minutes m v scale with
    | fault e => simp
    | ok mn =>
      cases mul m 60 scale with
      | fault e => simp
      | ok den => simp

theorem nan_branch_iff_scale_zero_witness :
    (100 : Int) ≠ 0
    ∧ minmea_float 375165 0 = .ok .nan
    ∧ minmea_coord .checked 375165 0 = .ok .nan
    ∧ minmea_float 375165 100 ≠ .ok .nan
    ∧ minmea_coord .checked 375165 100 ≠ .ok .nan :=
  ⟨by decide, (nan_branch_iff_scale_zero .checked 375165 100).1,
    (nan_branch_iff_scale_zero .checked 375165 100).2.1,
    (nan_branch_iff_scale_zero .checked 375165 100).2.2 (by decide)⟩

/-- C8: `minmea_coord` decodes DDMM.MMMM. For `scale > 0`, whole degrees `D >= 0`,
minute numerator `0 <= mn < 60 * scale`, `100 * scale * (D + 1)` inside the range of
`int` and `value = D * 100 * scale + mn`: the quotient by `scale * 100` is `D`, the
remainder is `mn`, and the result read in exact rational arithmetic is
`D + mn / (60 * scale)`, which lies in `[D, D + 1)`. -/
theorem coord_decodes_degrees_minutes (m : IntMode) (scale D mn : Int) (hs : 0 < scale)
    (hD : 0 ≤ D) (hm0 : 0 ≤ mn) (hm : mn < 60 * scale)
    (hr : 100 * scale * (D + 1) ≤ INT_MAX) :
    coord_degrees m (D * 100 * scale + mn) scale = .ok D
    ∧ coord_minutes m (D * 100 * scale + mn) scale = .ok mn
    ∧ minmea_coord m (D * 100 * scale + mn) scale
        = .ok (.num ((D : ℚ) + (mn : ℚ) / (60 * (scale : ℚ))))
    ∧ (D : ℚ) ≤ (D : ℚ) + (mn : ℚ) / (60 * (scale : ℚ))
    ∧ (D : ℚ) + (mn : ℚ) / (60 * (scale : ℚ)) < (D : ℚ) + 1 := by
  have hs0 : scale ≠ 0 := by omega
  have hd0 : scale * 100 ≠ 0 := by omega
  have hDS : 0 ≤ D * (scale * 100) := Int.mul_nonneg hD (by omega)
  have hval : D * 100 * scale + mn = mn + D * (scale * 100) := by ring
  have hr2 : D * (scale * 100) + scale * 100 ≤ INT_MAX := by
    have : 100 * scale * (D + 1) = D * (scale * 100) + scale * 100 := by ring
    rw [← this]; exact hr
  unfold INT_MAX at hr2
  have hS : inRange (scale * 100) := by unfold inRange INT_MIN INT_MAX; omega
  have h60 : inRange (60 * scale) := by unfold inRange INT_MIN INT_MAX; omega
  have hq : Int.tdiv (mn + D * (scale * 100)) (scale * 100) = D := by
    rw [Int.tdiv_eq_ediv (by omega) (by omega), Int.add_mul_ediv_right _ _ hd0,
      Int.ediv_eq_zero_of_lt hm0 (by omega), zero_add]
  have hrem : Int.tmod (mn + D * (scale * 100)) (scale * 100) = mn := by
    rw [Int.tmod_eq_emod (by omega) (by omega), Int.add_mul_emod_self,
      Int.emod_eq_of_lt hm0 (by omega)]
  have hDr : inRange D := by
    unfold inRange INT_MIN INT_MAX
    have : D ≤ D * (scale * 100) := by nlinarith
    omega
  have hmr : inRange mn := by unfold inRange INT_MIN INT_MAX; omega
  have hdeg : coord_degrees m (D * 100 * scale + mn) scale = .ok D := by
    rw [hval]
    simp [coord_degrees, mul, div, store_of_inRange m hS, hs0, hq, store_of_inRange m hDr]
  have hmin : coord_minutes m (D * 100 * scale + mn) scale = .ok mn := by
    rw [hval]
    simp [coord_minutes, mul, mod, store_of_inRange m hS, hs0, hq, hrem,
      store_of_inRange m hDr, store_of_inRange m hmr, Outcome.bind]
  have hsq : (0 : ℚ) < 60 * (scale : ℚ) := by
    have : (0 : ℚ) < (scale : ℚ) := by exact_mod_cast hs
    linarith
  have hmq0 : (0 : ℚ) ≤ (mn : ℚ) := by exact_mod_cast hm0
  have hmq : (mn : ℚ) < 60 * (scale : ℚ) := by exact_mod_cast hm
  refine ⟨hdeg, hmin, ?_, ?_, ?_⟩
  · rw [minmea_coord, if_neg hs0, hdeg, hmin]
    simp [mul, store_of_inRange m h60]
  · have : (0 : ℚ) ≤ (mn : ℚ) / (60 * (scale : ℚ)) := div_nonneg hmq0 (le_of_lt hsq)
    linarith
  · have : (mn : ℚ) / (60 * (scale : ℚ)) < 1 := (div_lt_one hsq).2 hmq
    linarith

theorem coord_decodes_degrees_minutes_witness :
    (0 : Int) < 100 ∧ (0 : Int) ≤ 37 ∧ (0 : Int) ≤ 5165 ∧ (5165 : Int) < 60 * 100
    ∧ 100 * 100 * (37 + 1) ≤ INT_MAX
    ∧ (37 * 100 * 100 + 5165 : Int) = 375165
    ∧ coord_degrees .checked (37 * 100 * 100 + 5165) 100 = .ok 37
    ∧ coord_minutes .checked (37 * 100 * 100 + 5165) 100 = .ok 5165
    ∧ minmea_coord .checked (37 * 100 * 100 + 5165) 100
        = .ok (.num (((37 : Int) : ℚ) + ((5165 : Int) : ℚ) / (60 * ((100 : Int) : ℚ))))
    ∧ ((37 : Int) : ℚ) ≤ ((37 : Int) : ℚ) + ((5165 : Int) : ℚ) / (60 * ((100 : Int) : ℚ))
    ∧ ((37 : Int) : ℚ) + ((5165 : Int) : ℚ) / (60 * ((100 : Int) : ℚ))
        < ((37 : Int) : ℚ) + 1 :=
  ⟨by decide, by decide, by decide, by decide, by decide, by decide,
    coord_decodes_degrees_minutes .checked 100 37 5165 (by decide) (by decide) (by decide)
      (by decide) (by decide)⟩

/-- C9: shrinking by an integer ratio rounds to the nearest integer, ties away from
zero. For `to > 0`, `from = k * to` with `k >= 2` and `|value| + k / 2` inside the
range of `int`, the call returns an `r` with `|value - r * k| <= k / 2`, `r` is `0` or
has the sign of `value`, `|r| = (|value| + k / 2) / k`, and at a tie (`k` even,
`|value| mod k = k / 2`) the magnitude `|r| * k` is `|value| + k / 2`, above `|value|`. -/
theorem rescale_shrink_nearest (m : IntMode) (value to_scale k : Int) (hto : 0 < to_scale)
    (hk : 2 ≤ k) (hfrom : k * to_scale ≤ INT_MAX) (hsum : |value| + k / 2 ≤ INT_MAX) :
    ∃ r : Int, minmea_rescale m value (k * to_scale) to_scale = .ok r
      ∧ |value - r * k| ≤ k / 2
      ∧ (r = 0 ∨ Int.sign r = Int.sign value)
      ∧ (k % 2 = 0 → |value| % k = k / 2 →
          |r| = (|value| + k / 2) / k ∧ |r| * k = |value| + k / 2 ∧ |value| < |r| * k) := by
  have hlt : to_scale < k * to_scale := by nlinarith
  have hdiv : k * to_scale / to_scale = k := Int.mul_ediv_cancel k (by omega)
  have hk1 : 1 ≤ k := by omega
  have hin : inRange (value + Int.sign value * (k / 2)) := by
    unfold inRange INT_MIN INT_MAX
    unfold INT_MAX at hsum
    rcases sign_cases value with ⟨hv, h⟩ | ⟨hv, h⟩ | ⟨hv, h⟩
    · rw [abs_of_pos hv] at hsum; rw [h]; omega
    · subst hv; simp
    · rw [abs_of_neg hv] at hsum; rw [h]; omega
  have hshrink := rescale_shrink m value (k * to_scale) to_scale hto hlt hfrom
    (by rw [hdiv]; exact hin)
  rw [hdiv, shrink_quotient value k hk1] at hshrink
  refine ⟨_, hshrink, ?_⟩
  have hn0 : 0 ≤ |value| + k / 2 := by have := abs_nonneg value; omega
  have hq0 : 0 ≤ (|value| + k / 2) / k := Int.ediv_nonneg hn0 (by omega)
  have hdm : (|value| + k / 2) % k + k * ((|value| + k / 2) / k) = |value| + k / 2 :=
    Int.emod_add_ediv _ _
  have hm0 : 0 ≤ (|value| + k / 2) % k := Int.emod_nonneg _ (by omega)
  have hmk : (|value| + k / 2) % k < k := Int.emod_lt_of_pos _ (by omega)
  have habs : |Int.sign value * ((|value| + k / 2) / k)| = (|value| + k / 2) / k := by
    rcases sign_cases value with ⟨hv, h⟩ | ⟨hv, h⟩ | ⟨hv, h⟩
    · rw [h, one_mul, abs_of_nonneg hq0]
    · subst hv
      have : (|(0 : Int)| + k / 2) / k = 0 := by
        rw [abs_zero, zero_add]
        exact Int.ediv_eq_zero_of_lt (by omega) (by omega)
      rw [this]; simp
    · rw [h, neg_one_mul, abs_neg, abs_of_nonneg hq0]
  refine ⟨?_, ?_, ?_⟩
  · rw [abs_le]
    rcases sign_cases value with ⟨hv, h⟩ | ⟨hv, h⟩ | ⟨hv, h⟩
    · rw [abs_of_pos hv] at hdm hm0 hmk
      rw [h, abs_of_pos hv, one_mul, mul_comm _ k]
      omega
    · subst hv
      simp only [Int.sign_zero, zero_mul, sub_zero]
      omega
    · rw [abs_of_neg hv] at hdm hm0 hmk
      rw [h, abs_of_neg hv, neg_one_mul, neg_mul, mul_comm _ k]
      omega
  · rcases eq_or_lt_of_le hq0 with h0 | hpos
    · left; rw [← h0, mul_zero]
    · right
      rw [Int.sign_mul, Int.sign_sign, Int.sign_eq_one_of_pos hpos, mul_one]
  · intro heven htie
    rw [habs]
    have hvdm : |value| % k + k * (|value| / k) = |value| := Int.emod_add_ediv _ _
    have hn : |value| + k / 2 = k * (|value| / k + 1) := by
      rw [mul_add, mul_one]
      omega
    have hq : (|value| + k / 2) / k = |value| / k + 1 := by
      rw [hn, Int.mul_ediv_cancel_left _ (by omega)]
    refine ⟨rfl, ?_, ?_⟩
    · rw [hq, mul_comm, ← hn]
    · rw [hq, mul_comm, ← hn]
      omega

theorem rescale_shrink_nearest_witness :
    (0 : Int) < 1 ∧ (2 : Int) ≤ 10 ∧ 10 * 1 ≤ INT_MAX ∧ |(-1235 : Int)| + 10 / 2 ≤ INT_MAX
    ∧ (10 : Int) % 2 = 0 ∧ |(-1235 : Int)| % 10 = 10 / 2
    ∧ ∃ r : Int, minmea_rescale .checked (-1235) (10 * 1) 1 = .ok r
      ∧ |(-1235 : Int) - r * 10| ≤ 10 / 2
      ∧ (r = 0 ∨ Int.sign r = Int.sign (-1235))
      ∧ |r| = (|(-1235 : Int)| + 10 / 2) / 10
      ∧ |r| * 10 = |(-1235 : Int)| + 10 / 2
      ∧ |(-1235 : Int)| < |r| * 10 := by
  refine ⟨by decide, by decide, by decide, by decide, by decide, by decide, ?_⟩
  obtain ⟨r, h1, h2, h3, h4⟩ :=
    rescale_shrink_nearest .checked (-1235) 1 10 (by decide) (by decide) (by decide)
      (by decide)
  exact ⟨r, h1, h2, h3, h4 (by decide) (by decide)⟩

/-- C10: on positive scales `minmea_rescale` never divides by zero. For `from > 0`
and `to > 0` the divisors of the shrinking branch (`to`, `2`, `from / to`) and of the
growing branch (`from`) are non-zero, no mode reports a division by zero, and the
wrap-around evaluation returns a value; whereas for `from > 0` and `to = 0` the
shrinking branch is reached and divides by zero. -/
theorem rescale_div_by_zero_only_at_zero_target (m : IntMode) (value from_scale to_scale : Int)
    (hfrom : 0 < from_scale) (hfmax : from_scale ≤ INT_MAX) (hto : 0 < to_scale)
    (htmax : to_scale ≤ INT_MAX) :
    (from_scale > to_scale →
        to_scale ≠ 0 ∧ (2 : Int) ≠ 0 ∧ Int.tdiv from_scale to_scale ≠ 0)
    ∧ (from_scale < to_scale → from_scale ≠ 0)
    ∧ minmea_rescale m value from_scale to_scale ≠ .fault .div_by_zero
    ∧ (∃ r, minmea_rescale .wrapping value from_scale to_scale = .ok r)
    ∧ minmea_rescale m value from_scale 0 = .fault .div_by_zero := by
  have hf0 : from_scale ≠ 0 := by omega
  refine ⟨?_, fun _ => hf0, ?_, ?_, ?_⟩
  · intro hgt
    have hk1 : 1 ≤ from_scale / to_scale := (Int.le_ediv_iff_mul_le hto).2 (by omega)
    rw [Int.tdiv_eq_ediv (by omega) (by omega)]
    exact ⟨by omega, by decide, by omega⟩
  · rcases lt_trichotomy from_scale to_scale with h | h | h
    · rw [rescale_grow_steps m value from_scale to_scale hfrom h htmax]
      rcases store_cases m (value * (to_scale / from_scale)) with e | ⟨y, e⟩ <;> rw [e] <;> simp
    · subst h; simp [minmea_rescale, hf0]
    · rw [rescale_shrink_steps m value from_scale to_scale hto h hfmax]
      rcases store_cases m (value + Int.sign value * (from_scale / to_scale / 2))
        with e | ⟨y, e⟩
      · rw [e]; simp
      · rw [e, bind_ok]
        rcases store_cases m (Int.tdiv y (from_scale / to_scale)) with e2 | ⟨z, e2⟩ <;>
          rw [e2] <;> simp
  · rcases lt_trichotomy from_scale to_scale with h | h | h
    · rw [rescale_grow_steps .wrapping value from_scale to_scale hfrom h htmax]
      exact ⟨_, rfl⟩
    · subst h; exact ⟨value, by simp [minmea_rescale, hf0]⟩
    · rw [rescale_shrink_steps .wrapping value from_scale to_scale hto h hfmax]
      exact ⟨_, rfl⟩
  · have hsign : inRange (Int.sign value) := by
      have := inRange_sign_mul value 1 (by omega) (by unfold INT_MAX; omega)
      rwa [mul_one] at this
    have ht1 := inRange_sign_mul value from_scale (by omega) hfmax
    have hgt : from_scale > 0 := hfrom
    rw [minmea_rescale, if_neg hf0, if_neg hf0, if_pos hgt]
    simp [sub, mul, div, truth_sub_truth, store_of_inRange m hsign, store_of_inRange m ht1]

theorem rescale_div_by_zero_only_at_zero_target_witness :
    (0 : Int) < 10 ∧ (10 : Int) ≤ INT_MAX ∧ (0 : Int) < 1 ∧ (1 : Int) ≤ INT_MAX
    ∧ (10 : Int) > 1
    ∧ ((1 : Int) ≠ 0 ∧ (2 : Int) ≠ 0 ∧ Int.tdiv 10 1 ≠ 0)
    ∧ minmea_rescale .checked 1235 10 1 ≠ .fault .div_by_zero
    ∧ (∃ r, minmea_rescale .wrapping 1235 10 1 = .ok r)
    ∧ minmea_rescale .checked 1235 10 0 = .fault .div_by_zero
    ∧ (1 : Int) < 10
    ∧ (1 : Int) ≠ 0
    ∧ minmea_rescale .checked 1235 1 10 ≠ .fault .div_by_zero := by
  have h1 := rescale_div_by_zero_only_at_zero_target .checked 1235 10 1 (by decide)
    (by decide) (by decide) (by decide)
  have h2 := rescale_div_by_zero_only_at_zero_target .checked 1235 1 10 (by decide)
    (by decide) (by decide) (by decide)
  exact ⟨by decide, by decide, by decide, by decide, by decide, h1.1 (by decide),
    h1.2.2.1, h1.2.2.2.1, h1.2.2.2.2, by decide, h2.2.1 (by decide), h2.2.2.1⟩

/-- C11: `minmea_rescale` is odd in its value. For `from > 0`, `to > 0` and a value
other than `INT_MIN`, when neither call overflows an intermediate result, `-value` is an
`int` and `minmea_rescale(-value, from, to) = -minmea_rescale(value, from, to)`: both
calls return, with opposite results, in every overflow mode. -/
theorem rescale_odd (m : IntMode) (value from_scale to_scale : Int)
    (hfrom : 0 < from_scale) (hfmax : from_scale ≤ INT_MAX) (hto : 0 < to_scale)
    (htmax : to_scale ≤ INT_MAX) (hv : inRange value) (hmin : value ≠ INT_MIN)
    (h1 : minmea_rescale .checked value from_scale to_scale ≠ .fault .overflow)
    (h2 : minmea_rescale .checked (-value) from_scale to_scale ≠ .fault .overflow) :
    inRange (-value)
    ∧ ∃ r : Int, minmea_rescale m value from_scale to_scale = .ok r
        ∧ minmea_rescale m (-value) from_scale to_scale = .ok (-r) := by
  constructor
  · unfold inRange INT_MIN INT_MAX at *
    omega
  · refine ⟨rescale_closed value from_scale to_scale,
      rescale_eq_closed m value from_scale to_scale hfrom hfmax hto htmax h1, ?_⟩
    rw [rescale_eq_closed m (-value) from_scale to_scale hfrom hfmax hto htmax h2,
      rescale_closed_neg]

theorem rescale_odd_witness :
    (0 : Int) < 10 ∧ (10 : Int) ≤ INT_MAX ∧ (0 : Int) < 1 ∧ (1 : Int) ≤ INT_MAX
    ∧ inRange 1235 ∧ (1235 : Int) ≠ INT_MIN
    ∧ minmea_rescale .checked 1235 10 1 ≠ .fault .overflow
    ∧ minmea_rescale .checked (-1235) 10 1 ≠ .fault .overflow
    ∧ inRange (-1235)
    ∧ ∃ r : Int, minmea_rescale .checked 1235 10 1 = .ok r
        ∧ minmea_rescale .checked (-1235) 10 1 = .ok (-r) :=
  ⟨by decide, by decide, by decide, by decide, by decide, by decide, by decide, by decide,
    rescale_odd .checked 1235 10 1 (by decide) (by decide) (by decide) (by decide)
      (by decide) (by decide) (by decide) (by decide)⟩

/-- C12: `minmea_rescale` is monotone in its value. For `from > 0`, `to > 0` and
`v1 <= v2`, when neither call overflows an intermediate result, both calls return and
`minmea_rescale(v1, from, to) <= minmea_rescale(v2, from, to)`, in every overflow mode. -/
theorem rescale_monotone (m : IntMode) (v1 v2 from_scale to_scale : Int)
    (hfrom : 0 < from_scale) (hfmax : from_scale ≤ INT_MAX) (hto : 0 < to_scale)
    (htmax : to_scale ≤ INT_MAX) (hle : v1 ≤ v2)
    (h1 : minmea_rescale .checked v1 from_scale to_scale ≠ .fault .overflow)
    (h2 : minmea_rescale .checked v2 from_scale to_scale ≠ .fault .overflow) :
    ∃ r1 r2 : Int, minmea_rescale m v1 from_scale to_scale = .ok r1
      ∧ minmea_rescale m v2 from_scale to_scale = .ok r2
      ∧ r1 ≤ r2 :=
  ⟨rescale_closed v1 from_scale to_scale, rescale_closed v2 from_scale to_scale,
    rescale_eq_closed m v1 from_scale to_scale hfrom hfmax hto htmax h1,
    rescale_eq_closed m v2 from_scale to_scale hfrom hfmax hto htmax h2,
    rescale_closed_mono v1 v2 from_scale to_scale hfrom hto hle⟩

theorem rescale_monotone_witness :
    (0 : Int) < 10 ∧ (10 : Int) ≤ INT_MAX ∧ (0 : Int) < 1 ∧ (1 : Int) ≤ INT_MAX
    ∧ (-1235 : Int) ≤ 1234
    ∧ minmea_rescale .checked (-1235) 10 1 ≠ .fault .overflow
    ∧ minmea_rescale .checked 1234 10 1 ≠ .fault .overflow
    ∧ ∃ r1 r2 : Int, minmea_rescale .checked (-1235) 10 1 = .ok r1
      ∧ minmea_rescale .checked 1234 10 1 = .ok r2
      ∧ r1 ≤ r2 :=
  ⟨by decide, by decide, by decide, by decide, by decide, by decide, by decide,
    rescale_monotone .checked (-1235) 1234 10 1 (by decide) (by decide) (by decide)
      (by decide) (by decide) (by decide) (by decide)⟩

/-- C13: the shrinking branch does not overflow on large values. For `from > to > 0`
and `|value| + (from / to) / 2 <= 2^31 - 1`, the intermediate results `sign * from`,
`sign * from / to / 2`, `value + adjustment` and the final quotient all lie in the range
of `int`, so every mode returns the same quotient: the wrap-around evaluation equals
the unbounded one. -/
theorem rescale_shrink_no_overflow (value from_scale to_scale : Int)
    (hto : 0 < to_scale) (hlt : to_scale < from_scale) (hfrom : from_scale ≤ INT_MAX)
    (hsum : |value| + from_scale / to_scale / 2 ≤ INT_MAX) :
    inRange (Int.sign value * from_scale)
    ∧ inRange (Int.tdiv (Int.tdiv (Int.sign value * from_scale) to_scale) 2)
    ∧ inRange (value + Int.tdiv (Int.tdiv (Int.sign value * from_scale) to_scale) 2)
    ∧ inRange (Int.tdiv (value + Int.tdiv (Int.tdiv (Int.sign value * from_scale) to_scale) 2)
        (Int.tdiv from_scale to_scale))
    ∧ minmea_rescale .wrapping value from_scale to_scale
        = minmea_rescale .unbounded value from_scale to_scale
    ∧ ∀ m : IntMode, minmea_rescale m value from_scale to_scale
        = .ok (Int.tdiv (value + Int.tdiv (Int.tdiv (Int.sign value * from_scale) to_scale) 2)
            (Int.tdiv from_scale to_scale)) := by
  have hk1 : 1 ≤ from_scale / to_scale := (Int.le_ediv_iff_mul_le hto).2 (by omega)
  have hkle : from_scale / to_scale ≤ from_scale := Int.ediv_le_self _ (by omega)
  have e2 : Int.tdiv (Int.sign value * from_scale) to_scale
      = Int.sign value * (from_scale / to_scale) :=
    tdiv_sign_mul _ _ _ (by omega) (by omega)
  have e3 : Int.tdiv (Int.sign value * (from_scale / to_scale)) 2
      = Int.sign value * (from_scale / to_scale / 2) :=
    tdiv_sign_mul _ _ _ (by omega) (by omega)
  have e4 : Int.tdiv from_scale to_scale = from_scale / to_scale :=
    Int.tdiv_eq_ediv (by omega) (by omega)
  have ht1 := inRange_sign_mul value from_scale (by omega) hfrom
  have hadj : inRange (Int.sign value * (from_scale / to_scale / 2)) := by
    unfold INT_MAX at hfrom
    exact inRange_sign_mul value _ (by omega) (by unfold INT_MAX; omega)
  have hnum : inRange (value + Int.sign value * (from_scale / to_scale / 2)) := by
    unfold inRange INT_MIN INT_MAX
    unfold INT_MAX at hsum
    rcases sign_cases value with ⟨hv, h⟩ | ⟨hv, h⟩ | ⟨hv, h⟩
    · rw [abs_of_pos hv] at hsum; rw [h]; omega
    · subst hv; simp
    · rw [abs_of_neg hv] at hsum; rw [h]; omega
  have hq := inRange_tdiv hnum hk1
  have hall : ∀ m : IntMode, minmea_rescale m value from_scale to_scale
      = .ok (Int.tdiv (value + Int.sign value * (from_scale / to_scale / 2))
          (from_scale / to_scale)) :=
    fun m => rescale_shrink m value from_scale to_scale hto hlt hfrom hnum
  rw [e2, e3, e4]
  exact ⟨ht1, hadj, hnum, hq, by rw [hall .wrapping, hall .unbounded], hall⟩

theorem rescale_shrink_no_overflow_witness :
    (0 : Int) < 10000 ∧ (10000 : Int) < 100000 ∧ (100000 : Int) ≤ INT_MAX
    ∧ |(510693608 : Int)| + 100000 / 10000 / 2 ≤ INT_MAX
    ∧ ¬ inRange (510693608 * 10000)
    ∧ minmea_rescale .wrapping 510693608 100000 10000 = .ok 51069361
    ∧ minmea_rescale .wrapping 510693608 100000 10000
        = minmea_rescale .unbounded 510693608 100000 10000 := by
  have h := rescale_shrink_no_overflow 510693608 100000 10000 (by decide) (by decide)
    (by decide) (by decide)
  exact ⟨by decide, by decide, by decide, by decide, by decide, by decide, h.2.2.2.2.1⟩

end Minmea
